import Mathlib

/-!
# Verification of the Light Painter stroke capture and rendering engine

Shallow embedding of the core of the Light Painter canvas application:
the input smoother, the capture pipeline (pointer down/move/up handlers),
the stroke model with undo/redo history, the point simplifiers, and the
brush renderer.  Coordinates, pressures and animation parameters are
modelled as exact rationals; timestamps (`Date.now()` milliseconds) as
integers.  The impure reads of `performance.now()` inside the renderer are
modelled by passing the current clock value as an explicit argument, and
the float math library (`Math.sin`, `Math.cos`, `Math.PI`) as an explicit
environment, following the spec's design note that the global animation
clock is treated as a parameter of every rendering call.
-/

/-- Brush style tag (`type BrushStyle = "ripple" | "pulse" | "particle"`). -/
inductive BrushStyle where
  | ripple
  | pulse
  | particle
deriving DecidableEq

/-- `interface StrokePoint { x; y; pressure; timestamp }`. -/
structure StrokePoint where
  x : ℚ
  y : ℚ
  pressure : ℚ
  timestamp : Int
deriving DecidableEq

instance : Inhabited StrokePoint := ⟨⟨0, 0, 0, 0⟩⟩

/-- `interface Stroke { points; brush; color; size }`. -/
structure Stroke where
  points : List StrokePoint
  brush : BrushStyle
  color : String
  size : ℚ
deriving DecidableEq

/-- Index-based filtering, embedding `array.filter((_, i) => p i)`:
keeps the elements whose position satisfies the predicate, the position
counter starting at `i`. -/
def filterIdx {α : Type} (p : Nat → Bool) : Nat → List α → List α
  | _, [] => []
  | i, x :: xs => if p i then x :: filterIdx p (i + 1) xs else filterIdx p (i + 1) xs

/-- Storage simplification applied at commit time inside `handlePointerUp`:
when the stroke holds more than 500 points, keep every `N`th point where
`N = Math.ceil(length / 500)`, plus the last point. -/
def simplifyStorage (pts : List StrokePoint) : List StrokePoint :=
  if 500 < pts.length then
    let simplificationFactor := (pts.length + 499) / 500
    filterIdx (fun i => i % simplificationFactor == 0 || i == pts.length - 1) 0 pts
  else pts

/-- Render-time simplification computed at the top of `drawBrush`:
when the stroke holds more than 200 points, keep every 2nd point plus the
last point (`stroke.points.filter((_, i) => i % 2 === 0 || i === n - 1)`). -/
def pointsToRender (pts : List StrokePoint) : List StrokePoint :=
  if 200 < pts.length then
    filterIdx (fun i => i % 2 == 0 || i == pts.length - 1) 0 pts
  else pts

/-- The value returned by `smoothInput`: `{ x, y, pressure }`. -/
structure SmoothedPoint where
  x : ℚ
  y : ℚ
  pressure : ℚ
deriving DecidableEq

/-- `smoothInput(point, pressure)`: the stateful low-pass filter.  The
mutable `lastPointRef` is threaded explicitly: the function takes the
current reference and returns the smoothed point together with the new
reference.  On the first call (reference absent) the raw point is returned
unchanged and recorded; afterwards
`smoothed = alpha * raw + (1 - alpha) * reference` per axis with
`alpha = 0.7`, and the reference becomes the smoothed point.  Pressure is
passed through unmodified. -/
def smoothInput (lastPoint : Option (ℚ × ℚ)) (px py pressure : ℚ) :
    SmoothedPoint × Option (ℚ × ℚ) :=
  match lastPoint with
  | none => (⟨px, py, pressure⟩, some (px, py))
  | some last =>
    let alpha : ℚ := 0.7
    let smoothedX := alpha * px + (1 - alpha) * last.1
    let smoothedY := alpha * py + (1 - alpha) * last.2
    (⟨smoothedX, smoothedY, pressure⟩, some (smoothedX, smoothedY))

/-- `n` repeated `smoothInput` calls with the identical raw point
`(px, py)` and pressure, starting from reference state `st`; returns the
reference state after the calls (which, once a reference exists, is the
smoothed point returned by the latest call). -/
def smoothIter (px py pressure : ℚ) (st : Option (ℚ × ℚ)) : Nat → Option (ℚ × ℚ)
  | 0 => st
  | n + 1 => (smoothInput (smoothIter px py pressure st n) px py pressure).2

/-- A pointer event as seen by the handlers: canvas-relative coordinates,
the device pressure (`e.pressure`), and the `Date.now()` arrival time. -/
structure PointerEvent where
  x : ℚ
  y : ℚ
  pressure : ℚ
  timestamp : Int
deriving DecidableEq

/-- The component state owned by the engine: the committed stroke list
(`strokes`), the redo stack, the in-progress stroke (`tempStroke`), the
`isDrawing` flag, the smoother reference (`lastPointRef`), the rate limiter
state (`lastMoveTimeRef`, `moveThrottleRef`), the control-surface values
read at stroke begin, and whether the canvas element is mounted
(`canvasRef.current !== null`). -/
structure EngineState where
  strokes : List Stroke
  redoStack : List Stroke
  tempStroke : Option Stroke
  isDrawing : Bool
  lastPoint : Option (ℚ × ℚ)
  lastMoveTime : Int
  moveThrottle : Int
  brushStyle : BrushStyle
  selectedColor : String
  brushSize : ℚ
  canvasReady : Bool
deriving DecidableEq

/-- `handlePointerDown`: no-op when the canvas is not mounted; otherwise
resets the smoother reference, smooths the first sample (which returns it
raw), creates the one-point in-progress stroke from the current brush
settings, raises `isDrawing`, and clears the redo stack. -/
def handlePointerDown (s : EngineState) (e : PointerEvent) : EngineState :=
  if s.canvasReady then
    let pressure := if 0 < e.pressure then e.pressure else 1
    let smoothed := smoothInput none e.x e.y pressure
    { s with
      lastPoint := smoothed.2
      tempStroke := some
        { points := [⟨smoothed.1.x, smoothed.1.y, smoothed.1.pressure, e.timestamp⟩]
          brush := s.brushStyle
          color := s.selectedColor
          size := s.brushSize }
      isDrawing := true
      redoStack := [] }
  else s

/-- `handlePointerMove`: no-op unless capturing with a mounted canvas.
Samples arriving within the adaptive interval of the previous accepted
sample are dropped.  An accepted sample is smoothed and appended; the
interval grows by 2ms (ceiling 32) when the stroke already exceeds 100
points and its most recent point is younger than 1000ms, and otherwise
decays by 1ms (floor 16). -/
def handlePointerMove (s : EngineState) (e : PointerEvent) : EngineState :=
  if s.isDrawing then
    match s.tempStroke with
    | none => s
    | some t =>
      if s.canvasReady then
        let now := e.timestamp
        if now - s.lastMoveTime < s.moveThrottle then s
        else
          let pressure := if 0 < e.pressure then e.pressure else 1
          let smoothed := smoothInput s.lastPoint e.x e.y pressure
          let recentLast : Bool :=
            match t.points.getLast? with
            | some p => decide (now - 1000 < p.timestamp)
            | none => false
          let moveThrottle' : Int :=
            if decide (100 < t.points.length) && recentLast then
              min 32 (s.moveThrottle + 2)
            else
              max 16 (s.moveThrottle - 1)
          { s with
            lastMoveTime := now
            lastPoint := smoothed.2
            moveThrottle := moveThrottle'
            tempStroke := some
              { t with points := t.points ++
                  [⟨smoothed.1.x, smoothed.1.y, smoothed.1.pressure, now⟩] } }
      else s
  else s

/-- `handlePointerUp` (also bound to pointer leave): no-op unless a
capture session is active.  A stroke with more than one point is committed
(after storage simplification); a shorter stroke is discarded.  The
session is destroyed and the sampling interval reset to 16ms regardless. -/
def handlePointerUp (s : EngineState) : EngineState :=
  if s.isDrawing then
    match s.tempStroke with
    | none => s
    | some t =>
      let strokes' :=
        if 1 < t.points.length then
          s.strokes ++ [{ t with points := simplifyStorage t.points }]
        else s.strokes
      { s with
        strokes := strokes'
        tempStroke := none
        isDrawing := false
        lastPoint := none
        moveThrottle := 16 }
  else s

/-- `handleUndo`: moves the last committed stroke (if any) to the end of
the redo stack. -/
def handleUndo (s : EngineState) : EngineState :=
  match s.strokes.getLast? with
  | none => s
  | some removedStroke =>
    { s with
      strokes := s.strokes.dropLast
      redoStack := s.redoStack ++ [removedStroke] }

/-- `handleRedo`: moves the last stroke of the redo stack (if any) back to
the end of the committed list. -/
def handleRedo (s : EngineState) : EngineState :=
  match s.redoStack.getLast? with
  | none => s
  | some strokeToRedo =>
    { s with
      redoStack := s.redoStack.dropLast
      strokes := s.strokes ++ [strokeToRedo] }

/-- `handleClear`: empties both history lists (the transient canvas flash
is pure surface output). -/
def handleClear (s : EngineState) : EngineState :=
  { s with strokes := [], redoStack := [] }

/-- The external events that can reach the engine. -/
inductive EngineEvent where
  | down (e : PointerEvent)
  | move (e : PointerEvent)
  | up
  | undo
  | redo
  | clear
  | setStyle (b : BrushStyle)
  | setColor (c : String)
  | setSize (n : ℚ)
  | canvas (b : Bool)

/-- One engine step: dispatches an event to its handler; the setter events
model the control surface writing the values read at stroke begin, and
`canvas` models the canvas element (un)mounting. -/
def engineStep (s : EngineState) : EngineEvent → EngineState
  | .down e => handlePointerDown s e
  | .move e => handlePointerMove s e
  | .up => handlePointerUp s
  | .undo => handleUndo s
  | .redo => handleRedo s
  | .clear => handleClear s
  | .setStyle b => { s with brushStyle := b }
  | .setColor c => { s with selectedColor := c }
  | .setSize n => { s with brushSize := n }
  | .canvas b => { s with canvasReady := b }

/-- The initial component state: empty histories, no session, rate limiter
at its 16ms base, default brush settings, canvas not yet mounted. -/
def initState : EngineState :=
  { strokes := []
    redoStack := []
    tempStroke := none
    isDrawing := false
    lastPoint := none
    lastMoveTime := 0
    moveThrottle := 16
    brushStyle := .ripple
    selectedColor := "#50E3C2"
    brushSize := 30
    canvasReady := false }

/-- Running a sequence of events from the initial state. -/
def runEvents (evs : List EngineEvent) : EngineState :=
  evs.foldl engineStep initState

/-! ## Basic lemmas about the index filter -/

theorem filterIdx_length {α : Type} (p : Nat → Bool) :
    ∀ (xs : List α) (i : Nat),
      (filterIdx p i xs).length = List.countP p (List.range' i xs.length)
  | [], _ => by simp [filterIdx]
  | x :: xs, i => by
    rw [List.length_cons, List.range'_succ]
    by_cases h : p i <;>
      simp [filterIdx, h, List.countP_cons, filterIdx_length p xs (i + 1)]

theorem filterIdx_head_mem {α : Type} (p : Nat → Bool) (x : α) (xs : List α)
    (hp : p 0 = true) : x ∈ filterIdx p 0 (x :: xs) := by
  simp [filterIdx, hp]

theorem filterIdx_getLast_mem {α : Type} (p : Nat → Bool) :
    ∀ (xs : List α) (i : Nat) (x : α), xs.getLast? = some x →
      p (i + xs.length - 1) = true → x ∈ filterIdx p i xs
  | [], _, _, h, _ => by simp at h
  | [a], i, x, h, hp => by
    simp only [List.getLast?_singleton, Option.some.injEq] at h
    subst h
    simp only [List.length_singleton, Nat.add_sub_cancel] at hp
    simp [filterIdx, hp]
  | a :: b :: xs, i, x, h, hp => by
    rw [List.getLast?_cons_cons] at h
    have hlen : (i + 1) + (b :: xs).length - 1 = i + (a :: b :: xs).length - 1 := by
      simp only [List.length_cons]; omega
    have ih := filterIdx_getLast_mem p (b :: xs) (i + 1) x h (by rw [hlen]; exact hp)
    show x ∈ if p i then a :: filterIdx p (i + 1) (b :: xs) else filterIdx p (i + 1) (b :: xs)
    by_cases hpi : p i
    · rw [if_pos hpi]; exact List.mem_cons_of_mem _ ih
    · rw [if_neg hpi]; exact ih

theorem countP_mod_eq (f : Nat) (hf : 0 < f) :
    ∀ n : Nat, List.countP (fun i => i % f == 0) (List.range n) = (n + f - 1) / f
  | 0 => by
    simp [Nat.div_eq_of_lt (show f - 1 < f by omega)]
  | n + 1 => by
    rw [List.range_succ, List.countP_append, countP_mod_eq f hf n]
    have h2 : n + 1 + f - 1 = (n + f - 1) + 1 := by omega
    rw [h2, Nat.succ_div]
    have h4 : n + f - 1 + 1 = n + f := by omega
    rw [h4]
    have h5 : (f ∣ n + f) ↔ n % f = 0 := by
      rw [Nat.add_comm, Nat.dvd_add_self_left, Nat.dvd_iff_mod_eq_zero]
    by_cases hd : n % f = 0 <;>
      simp [List.countP_cons, h5, hd]

theorem countP_or_le {α : Type} (p q : α → Bool) (l : List α) :
    List.countP (fun a => p a || q a) l ≤ List.countP p l + List.countP q l := by
  induction l with
  | nil => simp
  | cons a l ih =>
    simp only [List.countP_cons]
    by_cases hp : p a <;> by_cases hq : q a <;> simp [hp, hq] <;> omega

theorem countP_beq_range (n m : Nat) :
    List.countP (fun i => i == m) (List.range n) = if m < n then 1 else 0 := by
  induction n with
  | zero => simp
  | succ n ih =>
    rw [List.range_succ, List.countP_append, ih]
    simp only [List.countP_cons, List.countP_nil, Nat.zero_add, beq_iff_eq]
    repeat' split
    all_goals omega

theorem two_le_length_of_mem {α : Type} {l : List α} {a b : α}
    (ha : a ∈ l) (hb : b ∈ l) (hne : a ≠ b) : 2 ≤ l.length := by
  cases l with
  | nil => cases ha
  | cons x t =>
    cases t with
    | nil =>
      simp only [List.mem_singleton] at ha hb
      exact absurd (ha.trans hb.symm) hne
    | cons y t2 => simp only [List.length_cons]; omega

/-! ## Lemmas about the two subsampling filters -/

theorem everyNth_head_mem {α : Type} (f : Nat) (q : α) (pts : List α)
    (h : pts.head? = some q) :
    q ∈ filterIdx (fun i => i % f == 0 || i == pts.length - 1) 0 pts := by
  cases pts with
  | nil => simp at h
  | cons x xs =>
    simp only [List.head?_cons, Option.some.injEq] at h
    subst h
    exact filterIdx_head_mem _ _ _ (by simp)

theorem everyNth_getLast_mem {α : Type} (f : Nat) (q : α) (pts : List α)
    (h : pts.getLast? = some q) :
    q ∈ filterIdx (fun i => i % f == 0 || i == pts.length - 1) 0 pts := by
  apply filterIdx_getLast_mem _ pts 0 q h
  simp

theorem simplifyStorage_head_mem {pts : List StrokePoint} {q : StrokePoint}
    (h : pts.head? = some q) : q ∈ simplifyStorage pts := by
  unfold simplifyStorage
  split
  · exact everyNth_head_mem _ _ _ h
  · exact List.mem_of_mem_head? (by simp [h])

theorem simplifyStorage_getLast_mem {pts : List StrokePoint} {q : StrokePoint}
    (h : pts.getLast? = some q) : q ∈ simplifyStorage pts := by
  unfold simplifyStorage
  split
  · exact everyNth_getLast_mem _ _ _ h
  · exact List.mem_of_getLast?_eq_some h

theorem pointsToRender_head_mem {pts : List StrokePoint} {q : StrokePoint}
    (h : pts.head? = some q) : q ∈ pointsToRender pts := by
  unfold pointsToRender
  split
  · exact everyNth_head_mem _ _ _ h
  · exact List.mem_of_mem_head? (by simp [h])

theorem pointsToRender_getLast_mem {pts : List StrokePoint} {q : StrokePoint}
    (h : pts.getLast? = some q) : q ∈ pointsToRender pts := by
  unfold pointsToRender
  split
  · exact everyNth_getLast_mem _ _ _ h
  · exact List.mem_of_getLast?_eq_some h

theorem simplifyStorage_length_le {pts : List StrokePoint} (h : 500 < pts.length) :
    (simplifyStorage pts).length ≤ 501 := by
  unfold simplifyStorage
  rw [if_pos h]
  have hf : 0 < (pts.length + 499) / 500 := by
    rw [Nat.lt_iff_add_one_le, Nat.le_div_iff_mul_le (by omega : 0 < 500)]
    omega
  rw [filterIdx_length, ← List.range_eq_range']
  have hor := countP_or_le (fun i => i % ((pts.length + 499) / 500) == 0)
    (fun i => i == pts.length - 1) (List.range pts.length)
  rw [countP_mod_eq _ hf, countP_beq_range] at hor
  have h500 : pts.length ≤ 500 * ((pts.length + 499) / 500) := by
    have hdm := Nat.div_add_mod (pts.length + 499) 500
    have hr : (pts.length + 499) % 500 < 500 := Nat.mod_lt _ (by omega)
    omega
  have hdivle : (pts.length + (pts.length + 499) / 500 - 1) / ((pts.length + 499) / 500) ≤ 500 := by
    have := (Nat.div_lt_iff_lt_mul hf).mpr
      (show pts.length + (pts.length + 499) / 500 - 1 < 501 * ((pts.length + 499) / 500) by omega)
    omega
  split at hor <;> omega

theorem simplifyStorage_two_le {pts : List StrokePoint} (h2 : 2 ≤ pts.length) :
    2 ≤ (simplifyStorage pts).length := by
  unfold simplifyStorage
  split
  · next h =>
    rw [filterIdx_length, ← List.range_eq_range', List.countP_eq_length_filter]
    have h0 : (0 : Nat) ∈ List.filter
        (fun i => i % ((pts.length + 499) / 500) == 0 || i == pts.length - 1)
        (List.range pts.length) := by
      rw [List.mem_filter]
      exact ⟨List.mem_range.mpr (by omega), by simp⟩
    have h1 : pts.length - 1 ∈ List.filter
        (fun i => i % ((pts.length + 499) / 500) == 0 || i == pts.length - 1)
        (List.range pts.length) := by
      rw [List.mem_filter]
      exact ⟨List.mem_range.mpr (by omega), by simp⟩
    exact two_le_length_of_mem h0 h1 (by omega)
  · exact h2

/-! ## Lemmas about the handlers -/

theorem move_redoStack (s : EngineState) (e : PointerEvent) :
    (handlePointerMove s e).redoStack = s.redoStack := by
  simp only [handlePointerMove]
  repeat' split
  all_goals rfl

theorem move_strokes (s : EngineState) (e : PointerEvent) :
    (handlePointerMove s e).strokes = s.strokes := by
  simp only [handlePointerMove]
  repeat' split
  all_goals rfl

theorem up_redoStack (s : EngineState) :
    (handlePointerUp s).redoStack = s.redoStack := by
  simp only [handlePointerUp]
  repeat' split
  all_goals rfl

theorem foldMoves_redoStack (moves : List PointerEvent) :
    ∀ s : EngineState, (moves.foldl handlePointerMove s).redoStack = s.redoStack := by
  induction moves with
  | nil => intro s; rfl
  | cons e ms ih => intro s; rw [List.foldl_cons, ih, move_redoStack]

theorem move_throttle_bounds (s : EngineState) (e : PointerEvent)
    (h1 : 16 ≤ s.moveThrottle) (h2 : s.moveThrottle ≤ 32) :
    16 ≤ (handlePointerMove s e).moveThrottle ∧ (handlePointerMove s e).moveThrottle ≤ 32 := by
  simp only [handlePointerMove]
  repeat' split
  all_goals try exact ⟨h1, h2⟩
  all_goals simp only []
  all_goals constructor <;> omega

theorem foldMoves_throttle_bounds (moves : List PointerEvent) :
    ∀ s : EngineState, 16 ≤ s.moveThrottle → s.moveThrottle ≤ 32 →
      16 ≤ (moves.foldl handlePointerMove s).moveThrottle ∧
      (moves.foldl handlePointerMove s).moveThrottle ≤ 32 := by
  induction moves with
  | nil => intro s h1 h2; exact ⟨h1, h2⟩
  | cons e ms ih =>
    intro s h1 h2
    rw [List.foldl_cons]
    have hb := move_throttle_bounds s e h1 h2
    exact ih _ hb.1 hb.2

/-! ## Concrete states used by the witnesses -/

def pt0 : StrokePoint := ⟨0, 0, 1, 0⟩

def stroke2 : Stroke :=
  { points := [pt0, pt0], brush := .ripple, color := "#50E3C2", size := 30 }

def stroke101 : Stroke :=
  { points := List.replicate 101 pt0, brush := .ripple, color := "#50E3C2", size := 30 }

def stateOne : EngineState :=
  { initState with strokes := [stroke2], canvasReady := true }

def stateTwo : EngineState :=
  { initState with strokes := [stroke2], redoStack := [stroke2], canvasReady := true }

def stateDraw : EngineState :=
  { initState with isDrawing := true, tempStroke := some stroke2, canvasReady := true }

def stateGrow : EngineState :=
  { initState with
    isDrawing := true
    tempStroke := some stroke101
    canvasReady := true
    lastMoveTime := -100 }

/-! ## C2: undo/redo round trip -/

/-- C2: for every history state with a non-empty committed list, `undo()`
followed by `redo()` restores the committed list to exactly its prior
sequence (same strokes, same order) and the redo buffer to its prior
state. -/
theorem undo_redo_roundtrip (s : EngineState) (h : s.strokes ≠ []) :
    (handleRedo (handleUndo s)).strokes = s.strokes ∧
    (handleRedo (handleUndo s)).redoStack = s.redoStack := by
  rcases List.eq_nil_or_concat s.strokes with h0 | ⟨l, a, hl⟩
  · exact absurd h0 h
  · rw [List.concat_eq_append] at hl
    constructor <;>
      simp [handleUndo, handleRedo, hl, List.getLast?_concat, List.dropLast_concat]

/-- Witness for the C2 round trip at a concrete one-stroke history. -/
theorem undo_redo_roundtrip_witness :
    (handleRedo (handleUndo stateOne)).strokes = stateOne.strokes ∧
    (handleRedo (handleUndo stateOne)).redoStack = stateOne.redoStack :=
  undo_redo_roundtrip stateOne (by decide)

/-! ## C3: undo/redo as moves, and the pipeline redo discard -/

/-- C3: `undo` moves the last element of `committed` to the end of the
redo buffer, `redo` moves the last element of the redo buffer back onto
the end of `committed`, each is a no-op when its source list is empty, and
committing a new stroke via the capture pipeline (pointer down, any number
of pointer moves, pointer up) always leaves the redo buffer empty,
regardless of what it previously held. -/
theorem history_move_invariants (s : EngineState) :
    (s.strokes = [] → handleUndo s = s) ∧
    (∀ l a, s.strokes = l ++ [a] →
      (handleUndo s).strokes = l ∧ (handleUndo s).redoStack = s.redoStack ++ [a]) ∧
    (s.redoStack = [] → handleRedo s = s) ∧
    (∀ l a, s.redoStack = l ++ [a] →
      (handleRedo s).redoStack = l ∧ (handleRedo s).strokes = s.strokes ++ [a]) ∧
    (∀ (e : PointerEvent) (moves : List PointerEvent), s.canvasReady = true →
      (handlePointerUp (moves.foldl handlePointerMove (handlePointerDown s e))).redoStack
        = []) := by
  refine ⟨?_, ?_, ?_, ?_, ?_⟩
  · intro h; simp [handleUndo, h]
  · intro l a hl
    constructor <;> simp [handleUndo, hl, List.getLast?_concat, List.dropLast_concat]
  · intro h; simp [handleRedo, h]
  · intro l a hl
    constructor <;> simp [handleRedo, hl, List.getLast?_concat, List.dropLast_concat]
  · intro e moves hc
    rw [up_redoStack, foldMoves_redoStack]
    simp [handlePointerDown, hc]

/-- Witness for C3: each part applied at a concrete history. -/
theorem history_move_invariants_witness :
    handleUndo initState = initState ∧
    ((handleUndo stateTwo).strokes = [] ∧
      (handleUndo stateTwo).redoStack = stateTwo.redoStack ++ [stroke2]) ∧
    handleRedo initState = initState ∧
    ((handleRedo stateTwo).redoStack = [] ∧
      (handleRedo stateTwo).strokes = stateTwo.strokes ++ [stroke2]) ∧
    (handlePointerUp (([] : List PointerEvent).foldl handlePointerMove
      (handlePointerDown stateTwo ⟨0, 0, 1, 0⟩))).redoStack = [] :=
  ⟨(history_move_invariants initState).1 rfl,
   (history_move_invariants stateTwo).2.1 [] stroke2 rfl,
   (history_move_invariants initState).2.2.1 rfl,
   (history_move_invariants stateTwo).2.2.2.1 [] stroke2 rfl,
   (history_move_invariants stateTwo).2.2.2.2 ⟨0, 0, 1, 0⟩ [] rfl⟩

/-! ## C4: bounds of the adaptive sampling interval -/

/-- C4: the adaptive sampling interval starts at 16ms, is reset to 16ms
when an active session ends, is left unchanged by dropped samples, grows
by 2ms per accepted call up to the 32ms ceiling when the stroke exceeds
100 points and its most recent point is younger than 1000ms, otherwise
decays by 1ms per accepted call down to the 16ms floor, and stays within
[16ms, 32ms] across any sequence of pointer-move calls. -/
theorem adaptive_interval_invariant :
    initState.moveThrottle = 16 ∧
    (∀ s : EngineState, s.isDrawing = true → s.tempStroke ≠ none →
      (handlePointerUp s).moveThrottle = 16) ∧
    (∀ (s : EngineState) (e : PointerEvent),
      e.timestamp - s.lastMoveTime < s.moveThrottle →
      handlePointerMove s e = s) ∧
    (∀ (s : EngineState) (e : PointerEvent) (t : Stroke) (p : StrokePoint),
      s.isDrawing = true → s.tempStroke = some t → s.canvasReady = true →
      ¬ e.timestamp - s.lastMoveTime < s.moveThrottle →
      100 < t.points.length → t.points.getLast? = some p →
      e.timestamp - 1000 < p.timestamp →
      (handlePointerMove s e).moveThrottle = min 32 (s.moveThrottle + 2)) ∧
    (∀ (s : EngineState) (e : PointerEvent) (t : Stroke),
      s.isDrawing = true → s.tempStroke = some t → s.canvasReady = true →
      ¬ e.timestamp - s.lastMoveTime < s.moveThrottle →
      (¬ 100 < t.points.length ∨
        (∃ p, t.points.getLast? = some p ∧ p.timestamp ≤ e.timestamp - 1000)) →
      (handlePointerMove s e).moveThrottle = max 16 (s.moveThrottle - 1)) ∧
    (∀ (s : EngineState) (moves : List PointerEvent),
      16 ≤ s.moveThrottle → s.moveThrottle ≤ 32 →
      16 ≤ (moves.foldl handlePointerMove s).moveThrottle ∧
      (moves.foldl handlePointerMove s).moveThrottle ≤ 32) := by
  refine ⟨rfl, ?_, ?_, ?_, ?_, ?_⟩
  · intro s hdraw htemp
    cases ht : s.tempStroke with
    | none => exact absurd ht htemp
    | some t => simp [handlePointerUp, hdraw, ht]
  · intro s e hdrop
    cases ht : s.tempStroke with
    | none => simp [handlePointerMove, ht]
    | some t => simp [handlePointerMove, ht, hdrop]
  · intro s e t p hdraw htemp hc hdrop hlen hlast hfresh
    simp [handlePointerMove, hdraw, htemp, hc, hdrop, hlen, hlast, hfresh]
  · intro s e t hdraw htemp hc hdrop hdecay
    rcases hdecay with hlen | ⟨p, hlast, hstale⟩
    · simp [handlePointerMove, hdraw, htemp, hc, hdrop, hlen]
    · have hns : ¬ e.timestamp - 1000 < p.timestamp := by omega
      simp [handlePointerMove, hdraw, htemp, hc, hdrop, hlast, hns]
  · intro s moves h1 h2
    exact foldMoves_throttle_bounds moves s h1 h2

/-- Witness for C4: each part applied at concrete sessions (reset, a
dropped sample, a growth step on a 101-point stroke with a fresh last
point, a decay step on a short stroke, and a fold from the base state). -/
theorem adaptive_interval_invariant_witness :
    (handlePointerUp stateDraw).moveThrottle = 16 ∧
    handlePointerMove stateDraw ⟨0, 0, 1, 0⟩ = stateDraw ∧
    (handlePointerMove stateGrow ⟨0, 0, 1, 10⟩).moveThrottle =
      min 32 (stateGrow.moveThrottle + 2) ∧
    (handlePointerMove stateDraw ⟨0, 0, 1, 100⟩).moveThrottle =
      max 16 (stateDraw.moveThrottle - 1) ∧
    (16 ≤ (([] : List PointerEvent).foldl handlePointerMove initState).moveThrottle ∧
      (([] : List PointerEvent).foldl handlePointerMove initState).moveThrottle ≤ 32) :=
  ⟨adaptive_interval_invariant.2.1 stateDraw rfl (by decide),
   adaptive_interval_invariant.2.2.1 stateDraw ⟨0, 0, 1, 0⟩ (by decide),
   adaptive_interval_invariant.2.2.2.1 stateGrow ⟨0, 0, 1, 10⟩ stroke101 pt0 (by rfl)
     (by rfl) (by rfl) (by decide) (by decide) (by decide) (by decide),
   adaptive_interval_invariant.2.2.2.2.1 stateDraw ⟨0, 0, 1, 100⟩ stroke2 (by rfl)
     (by rfl) (by rfl) (by decide) (Or.inl (by decide)),
   adaptive_interval_invariant.2.2.2.2.2 initState [] (by decide) (by decide)⟩

/-! ## C5: the smoother contract -/

/-- C5: on the first call after a reset the smoother returns the raw point
unchanged and records it as the reference; on every later call it returns
`0.7·raw + 0.3·reference` computed independently per axis, stores that
smoothed point as the new reference, and passes pressure through
unmodified. -/
theorem smoother_contract (px py pr lx ly : ℚ) :
    smoothInput none px py pr = (⟨px, py, pr⟩, some (px, py)) ∧
    smoothInput (some (lx, ly)) px py pr =
      (⟨0.7 * px + 0.3 * lx, 0.7 * py + 0.3 * ly, pr⟩,
       some (0.7 * px + 0.3 * lx, 0.7 * py + 0.3 * ly)) := by
  constructor
  · rfl
  · simp only [smoothInput, Prod.mk.injEq, SmoothedPoint.mk.injEq, Option.some.injEq]
    norm_num

/-! ## C8: geometric convergence of the smoother -/

/-- C8: repeated `smoothInput` calls with an identical raw point converge
to it geometrically: after `n` calls from reference `(lx, ly)` the
reference — which each call with an existing reference returns as its
smoothed output — equals `raw + 0.3ⁿ·(ref₀ - raw)` per axis, so the
per-axis distance to the raw point is exactly `0.3ⁿ = (1-α)ⁿ` times the
initial distance from the reference to the raw point. -/
theorem smoother_geometric_decay (px py pr lx ly : ℚ) (n : ℕ) :
    smoothIter px py pr (some (lx, ly)) n =
      some (px + 0.3 ^ n * (lx - px), py + 0.3 ^ n * (ly - py)) ∧
    |px + 0.3 ^ n * (lx - px) - px| = 0.3 ^ n * |lx - px| ∧
    |py + 0.3 ^ n * (ly - py) - py| = 0.3 ^ n * |ly - py| ∧
    (∀ (c : ℚ × ℚ) (qx qy qp : ℚ),
      (smoothInput (some c) qx qy qp).2 =
        some ((smoothInput (some c) qx qy qp).1.x,
              (smoothInput (some c) qx qy qp).1.y)) := by
  refine ⟨?_, ?_, ?_, ?_⟩
  · induction n with
    | zero => simp [smoothIter]
    | succ n ih =>
      rw [smoothIter, ih]
      simp only [smoothInput, Prod.mk.injEq, Option.some.injEq]
      constructor <;> ring
  · rw [add_sub_cancel_left, abs_mul, abs_pow,
      abs_of_pos (show (0 : ℚ) < 0.3 by norm_num)]
  · rw [add_sub_cancel_left, abs_mul, abs_pow,
      abs_of_pos (show (0 : ℚ) < 0.3 by norm_num)]
  · intro c qx qy qp; rfl

/-! ## C6: strokes with fewer than 2 points are never committed -/

/-- The history well-formedness invariant: every stroke held by the
committed list or the redo stack has at least 2 points. -/
def HistoryInv (s : EngineState) : Prop :=
  (∀ st ∈ s.strokes, 2 ≤ st.points.length) ∧
  (∀ st ∈ s.redoStack, 2 ≤ st.points.length)

theorem engineStep_preserves_inv (s : EngineState) (ev : EngineEvent)
    (h : HistoryInv s) : HistoryInv (engineStep s ev) := by
  cases ev with
  | down e =>
    simp only [engineStep, handlePointerDown]
    split
    · exact ⟨h.1, by simp⟩
    · exact h
  | move e =>
    constructor
    · intro st hst
      rw [engineStep, move_strokes] at hst
      exact h.1 st hst
    · intro st hst
      rw [engineStep, move_redoStack] at hst
      exact h.2 st hst
  | up =>
    simp only [engineStep, handlePointerUp]
    split
    · cases htemp : s.tempStroke with
      | none => exact h
      | some t =>
        refine ⟨?_, h.2⟩
        intro st hst
        simp only [] at hst
        by_cases hlen : 1 < t.points.length
        · simp only [hlen, if_true, List.mem_append, List.mem_singleton] at hst
          rcases hst with hst | rfl
          · exact h.1 st hst
          · exact simplifyStorage_two_le (by omega)
        · simp only [hlen, if_false] at hst
          exact h.1 st hst
    · exact h
  | undo =>
    simp only [engineStep, handleUndo]
    cases hg : s.strokes.getLast? with
    | none => exact h
    | some a =>
      constructor
      · intro st hst
        simp only [] at hst
        exact h.1 st ((List.dropLast_sublist s.strokes).mem hst)
      · intro st hst
        simp only [List.mem_append, List.mem_singleton] at hst
        rcases hst with hst | rfl
        · exact h.2 st hst
        · exact h.1 _ (List.mem_of_getLast?_eq_some hg)
  | redo =>
    simp only [engineStep, handleRedo]
    cases hg : s.redoStack.getLast? with
    | none => exact h
    | some a =>
      constructor
      · intro st hst
        simp only [List.mem_append, List.mem_singleton] at hst
        rcases hst with hst | rfl
        · exact h.1 st hst
        · exact h.2 _ (List.mem_of_getLast?_eq_some hg)
      · intro st hst
        simp only [] at hst
        exact h.2 st ((List.dropLast_sublist s.redoStack).mem hst)
  | clear => exact ⟨by simp [engineStep, handleClear], by simp [engineStep, handleClear]⟩
  | setStyle b => exact h
  | setColor c => exact h
  | setSize n => exact h
  | canvas b => exact h

theorem foldSteps_inv (evs : List EngineEvent) :
    ∀ s : EngineState, HistoryInv s → HistoryInv (evs.foldl engineStep s) := by
  induction evs with
  | nil => intro s h; exact h
  | cons ev evs ih =>
    intro s h
    rw [List.foldl_cons]
    exact ih _ (engineStep_preserves_inv s ev h)

theorem runEvents_inv (evs : List EngineEvent) : HistoryInv (runEvents evs) :=
  foldSteps_inv evs initState ⟨by simp [initState], by simp [initState]⟩

/-- C6: ending a session whose stroke has fewer than 2 points silently
discards it, leaving the committed list unchanged while still destroying
the session; `end()` with no active session is a complete no-op; and in
every state reachable from the initial one, every committed stroke has at
least 2 points. -/
theorem short_strokes_never_committed :
    (∀ s : EngineState, s.isDrawing = false ∨ s.tempStroke = none →
      handlePointerUp s = s) ∧
    (∀ (s : EngineState) (t : Stroke), s.isDrawing = true → s.tempStroke = some t →
      t.points.length < 2 →
      (handlePointerUp s).strokes = s.strokes ∧
      (handlePointerUp s).tempStroke = none ∧
      (handlePointerUp s).isDrawing = false) ∧
    (∀ evs : List EngineEvent, ∀ st ∈ (runEvents evs).strokes,
      2 ≤ st.points.length) := by
  refine ⟨?_, ?_, ?_⟩
  · intro s h
    rcases h with h | h
    · simp [handlePointerUp, h]
    · cases hd : s.isDrawing
      · simp [handlePointerUp, hd]
      · simp [handlePointerUp, hd, h]
  · intro s t hdraw htemp hlen
    have h1 : ¬ 1 < t.points.length := by omega
    refine ⟨?_, ?_, ?_⟩ <;> simp [handlePointerUp, hdraw, htemp, h1]
  · intro evs
    exact (runEvents_inv evs).1

def stroke1 : Stroke :=
  { points := [pt0], brush := .ripple, color := "#50E3C2", size := 30 }

def stateShort : EngineState :=
  { initState with isDrawing := true, tempStroke := some stroke1, canvasReady := true }

/-- The stroke committed by the event run of the C6 witness: the pointer
goes down at the origin and one accepted move arrives 100ms later at the
origin, so both the raw and the smoothed points coincide with it. -/
def committedWitness : Stroke :=
  { points := [⟨0, 0, 1, 0⟩, ⟨0, 0, 1, 100⟩], brush := .ripple,
    color := "#50E3C2", size := 30 }

/-- Witness for C6: a no-op `end()` on the initial state, a discarded
1-point session, and a concrete reachable committed stroke of 2 points. -/
theorem short_strokes_never_committed_witness :
    handlePointerUp initState = initState ∧
    ((handlePointerUp stateShort).strokes = stateShort.strokes ∧
      (handlePointerUp stateShort).tempStroke = none ∧
      (handlePointerUp stateShort).isDrawing = false) ∧
    2 ≤ committedWitness.points.length :=
  ⟨(short_strokes_never_committed.1 initState (Or.inl rfl)),
   (short_strokes_never_committed.2.1 stateShort stroke1 (by rfl) (by rfl) (by decide)),
   (short_strokes_never_committed.2.2
     [.canvas true, .down ⟨0, 0, 1, 0⟩, .move ⟨0, 0, 1, 100⟩, .up]
     committedWitness (by
       norm_num [runEvents, engineStep, handlePointerDown, handlePointerMove,
         handlePointerUp, initState, smoothInput, simplifyStorage, committedWitness]))⟩

/-! ## C1: the storage simplification bound (corrected to 501) -/

def strokeLong : Stroke :=
  { points := List.replicate 1000 pt0, brush := .ripple, color := "#50E3C2", size := 30 }

def stateLong : EngineState :=
  { initState with isDrawing := true, tempStroke := some strokeLong, canvasReady := true }

def strokeLong2 : Stroke :=
  { points := List.replicate 501 pt0, brush := .ripple, color := "#50E3C2", size := 30 }

def stateLong2 : EngineState :=
  { initState with isDrawing := true, tempStroke := some strokeLong2, canvasReady := true }

set_option maxRecDepth 10000

/-- C1 counterexample: ending a session holding exactly 1000 raw points
commits a stroke with 501 stored points — the every-`N`th filter keeps the
500 even indices and the extra last-point clause keeps index 999 as well —
so the committed point count is *not* at most 500. -/
theorem storage_simplification_counterexample :
    (handlePointerUp stateLong).strokes.map (fun st => st.points.length) = [501] ∧
    ¬ ∀ st ∈ (handlePointerUp stateLong).strokes, st.points.length ≤ 500 := by
  decide

/-- C1 (amended): for every in-progress stroke whose point count exceeds
500 at `end()`, the committed stroke is the stroke filtered by the
every-`N`th-plus-last-point rule with `N = ceil(count / 500)`, its stored
point count is at most **501** (the claimed 500 can be exceeded by exactly
the extra last point, e.g. at 1000 raw points), and it includes the
original last point. -/
theorem storage_simplification_bound (s : EngineState) (t : Stroke)
    (hdraw : s.isDrawing = true) (ht : s.tempStroke = some t)
    (hlen : 500 < t.points.length) :
    (handlePointerUp s).strokes =
      s.strokes ++ [{ t with points := simplifyStorage t.points }] ∧
    (simplifyStorage t.points).length ≤ 501 ∧
    ∀ q, t.points.getLast? = some q → q ∈ simplifyStorage t.points := by
  refine ⟨?_, simplifyStorage_length_le hlen, fun q hq => simplifyStorage_getLast_mem hq⟩
  have h1 : 1 < t.points.length := by omega
  simp [handlePointerUp, hdraw, ht, h1]

/-- Witness for the amended C1 at a concrete 501-point session. -/
theorem storage_simplification_bound_witness :
    (handlePointerUp stateLong2).strokes =
      stateLong2.strokes ++ [{ strokeLong2 with points := simplifyStorage strokeLong2.points }] ∧
    (simplifyStorage strokeLong2.points).length ≤ 501 ∧
    pt0 ∈ simplifyStorage strokeLong2.points := by
  have h := storage_simplification_bound stateLong2 strokeLong2 (by rfl) (by rfl) (by decide)
  exact ⟨h.1, h.2.1, h.2.2 pt0 (by decide)⟩

/-! ## C7: simplification preserves endpoints -/

/-- C7: for every stroke, the first and the last point of the original
point sequence appear by value both in the storage-simplified sequence
(every-`N`th filter at commit) and in the render-time-simplified sequence
(every-2nd filter above 200 points); the render-time subsample is a pure
recomputation from the stored sequence, which it returns unchanged below
its threshold. -/
theorem simplification_preserves_endpoints (pts : List StrokePoint)
    (pfirst plast : StrokePoint)
    (hf : pts.head? = some pfirst) (hl : pts.getLast? = some plast) :
    pfirst ∈ simplifyStorage pts ∧ plast ∈ simplifyStorage pts ∧
    pfirst ∈ pointsToRender pts ∧ plast ∈ pointsToRender pts ∧
    (pts.length ≤ 200 → pointsToRender pts = pts) :=
  ⟨simplifyStorage_head_mem hf, simplifyStorage_getLast_mem hl,
   pointsToRender_head_mem hf, pointsToRender_getLast_mem hl,
   fun h => by unfold pointsToRender; rw [if_neg (by omega)]⟩

def ptW2 : StrokePoint := ⟨2, 2, 1, 2⟩

def ptsW : List StrokePoint := [pt0, ⟨1, 1, 1, 1⟩, ptW2]

/-- Witness for C7 at a concrete three-point stroke. -/
theorem simplification_preserves_endpoints_witness :
    pt0 ∈ simplifyStorage ptsW ∧ ptW2 ∈ simplifyStorage ptsW ∧
    pt0 ∈ pointsToRender ptsW ∧ ptW2 ∈ pointsToRender ptsW ∧
    pointsToRender ptsW = ptsW := by
  have h := simplification_preserves_endpoints ptsW pt0 ptW2 (by rfl) (by decide)
  exact ⟨h.1, h.2.1, h.2.2.1, h.2.2.2.1, h.2.2.2.2 (by decide)⟩

/-! ## Color utilities -/

/-- Value of one hexadecimal digit (`parseInt(…, 16)` per character);
characters outside the hex alphabet contribute 0 (the palette colors that
enter the engine are pre-validated, per the spec's precondition). -/
def hexVal : Char → Nat
  | '0' => 0 | '1' => 1 | '2' => 2 | '3' => 3 | '4' => 4
  | '5' => 5 | '6' => 6 | '7' => 7 | '8' => 8 | '9' => 9
  | 'a' => 10 | 'b' => 11 | 'c' => 12 | 'd' => 13 | 'e' => 14 | 'f' => 15
  | 'A' => 10 | 'B' => 11 | 'C' => 12 | 'D' => 13 | 'E' => 14 | 'F' => 15
  | _ => 0

/-- `parseInt(color.slice(i, i + 2), 16)` for a two-character slice. -/
def parseHexByte (color : String) (i : Nat) : Nat :=
  16 * hexVal (color.toList.getD i '0') + hexVal (color.toList.getD (i + 1) '0')

/-- JS `Math.round`: round half toward positive infinity. -/
def roundQ (q : ℚ) : Int := Int.floor (q + 1 / 2)

/-- `n.toString(16).padStart(2, "0")` for a channel value. -/
def toHexByte (n : Nat) : List Char :=
  let ds := Nat.toDigits 16 n
  if ds.length = 1 then '0' :: ds else ds

/-- `adjustColorBrightness(color, factor)`: each of R/G/B is multiplied by
the factor, rounded, clamped to 255, and re-serialised as `#rrggbb`. -/
def adjustColorBrightness (color : String) (factor : ℚ) : String :=
  let r := parseHexByte color 1
  let g := parseHexByte color 3
  let b := parseHexByte color 5
  let r' := (min 255 (roundQ ((r : ℚ) * factor))).toNat
  let g' := (min 255 (roundQ ((g : ℚ) * factor))).toNat
  let b' := (min 255 (roundQ ((b : ℚ) * factor))).toNat
  String.mk ('#' :: (toHexByte r' ++ toHexByte g' ++ toHexByte b'))

/-- `setColorOpacity(color, opacity)`: re-expresses the color as an
`rgba(r, g, b, opacity)` string with the alpha injected. -/
def setColorOpacity (color : String) (opacity : ℚ) : String :=
  let r := parseHexByte color 1
  let g := parseHexByte color 3
  let b := parseHexByte color 5
  "rgba(" ++ toString r ++ ", " ++ toString g ++ ", " ++ toString b ++ ", "
    ++ toString opacity ++ ")"

/-! ## The rendering surface -/

/-- The persistent drawing attributes of the 2D context that `save` /
`restore` manage. -/
structure CanvasAttrs where
  lineWidth : ℚ
  strokeStyle : String
  fillStyle : String
  globalAlpha : ℚ
  shadowBlur : ℚ
  shadowColor : String
  lineCap : String
  lineJoin : String
deriving DecidableEq

/-- One segment of the current path under construction. -/
inductive PathSeg where
  | moveTo (x y : ℚ)
  | lineTo (x y : ℚ)
  | arc (x y radius startAngle endAngle : ℚ)
deriving DecidableEq

/-- One realised drawing command: a `stroke()` or `fill()` snapshots the
current path together with every attribute in force at that moment (which
is what determines the pixels it produces). -/
inductive DrawCmd where
  | strokedPath (path : List PathSeg) (a : CanvasAttrs)
  | filledPath (path : List PathSeg) (a : CanvasAttrs)
deriving DecidableEq

/-- The 2D context: current attributes, the `save`/`restore` stack (which
holds attributes only — the path survives a `restore`, as in the canvas
API), the transient current path, and the append-only list of drawing
commands issued so far. -/
structure Canvas where
  attrs : CanvasAttrs
  stack : List CanvasAttrs
  path : List PathSeg
  output : List DrawCmd
deriving DecidableEq

/-- One call on the 2D context, as issued by `drawBrush`. -/
inductive CtxOp where
  | save
  | restore
  | beginPath
  | lineWidth (w : ℚ)
  | strokeStyle (s : String)
  | fillStyle (s : String)
  | globalAlpha (a : ℚ)
  | shadowBlur (b : ℚ)
  | shadowColor (s : String)
  | lineCap (s : String)
  | lineJoin (s : String)
  | moveTo (x y : ℚ)
  | lineTo (x y : ℚ)
  | arc (x y radius startAngle endAngle : ℚ)
  | stroke
  | fill
deriving DecidableEq

/-- The semantics of one context call. -/
def applyOp (c : Canvas) : CtxOp → Canvas
  | .save => { c with stack := c.attrs :: c.stack }
  | .restore =>
    match c.stack with
    | [] => c
    | a :: rest => { c with attrs := a, stack := rest }
  | .beginPath => { c with path := [] }
  | .lineWidth w => { c with attrs := { c.attrs with lineWidth := w } }
  | .strokeStyle s => { c with attrs := { c.attrs with strokeStyle := s } }
  | .fillStyle s => { c with attrs := { c.attrs with fillStyle := s } }
  | .globalAlpha a => { c with attrs := { c.attrs with globalAlpha := a } }
  | .shadowBlur b => { c with attrs := { c.attrs with shadowBlur := b } }
  | .shadowColor s => { c with attrs := { c.attrs with shadowColor := s } }
  | .lineCap s => { c with attrs := { c.attrs with lineCap := s } }
  | .lineJoin s => { c with attrs := { c.attrs with lineJoin := s } }
  | .moveTo x y => { c with path := c.path ++ [.moveTo x y] }
  | .lineTo x y => { c with path := c.path ++ [.lineTo x y] }
  | .arc x y r a0 a1 => { c with path := c.path ++ [.arc x y r a0 a1] }
  | .stroke => { c with output := c.output ++ [.strokedPath c.path c.attrs] }
  | .fill => { c with output := c.output ++ [.filledPath c.path c.attrs] }

/-- Running a sequence of context calls. -/
def applyOps (ops : List CtxOp) (c : Canvas) : Canvas := ops.foldl applyOp c

/-- The ambient float math library: `Math.sin`, `Math.cos` and `Math.PI`
abstracted as parameters of the renderer. -/
structure MathEnv where
  sinq : ℚ → ℚ
  cosq : ℚ → ℚ
  piq : ℚ

/-- Concatenation of the op lists produced for each element of a list
(the loops of `drawBrush` unrolled in order). -/
def cmap {α β : Type} (f : α → List β) : List α → List β
  | [] => []
  | a :: l => f a ++ cmap f l

/-- The `ripple` brush: a continuous path through every render point with
pressure-scaled width updated every 5th point, oscillating with
`0.8 + 0.2·sin(2·nowSeconds)`; strokes with more than 10 render points
get a thinner, brightened overlay path sampled every
`max(1, floor(n/10))` points. -/
def rippleOps (env : MathEnv) (now : ℚ) (stroke : Stroke)
    (pts : List StrokePoint) : List CtxOp :=
  let rippleTime := now * 0.001
  let rippleScale := 0.8 + 0.2 * env.sinq (rippleTime * 2)
  let n := pts.length
  [CtxOp.beginPath,
   CtxOp.moveTo (pts.getD 0 default).x (pts.getD 0 default).y] ++
  cmap (fun i =>
      let point := pts.getD i default
      let scaledWidth := stroke.size * point.pressure * rippleScale
      (if i % 5 == 0 || i == n - 1 then [CtxOp.lineWidth scaledWidth] else []) ++
      [CtxOp.lineTo point.x point.y])
    (List.range' 1 (n - 1)) ++
  [CtxOp.strokeStyle stroke.color, CtxOp.stroke] ++
  (if 10 < n then
    let step := max 1 (n / 10)
    [CtxOp.beginPath] ++
    cmap (fun k =>
        let i := k * step
        let point := pts.getD i default
        if i == 0 then [CtxOp.moveTo point.x point.y]
        else [CtxOp.lineTo point.x point.y])
      (List.range ((n + step - 1) / step)) ++
    (let lastPoint := pts.getD (n - 1) default
     [CtxOp.lineTo lastPoint.x lastPoint.y,
      CtxOp.lineWidth (stroke.size * 0.4 * rippleScale),
      CtxOp.strokeStyle (adjustColorBrightness stroke.color 1.2),
      CtxOp.stroke])
  else [])

/-- The `pulse` brush: the full path at width `size·(0.8+0.4·sin(3·s))`,
then an every-other-point overlay at `1.5×` that width and 30% opacity. -/
def pulseOps (env : MathEnv) (now : ℚ) (stroke : Stroke)
    (pts : List StrokePoint) : List CtxOp :=
  let pulseTime := now * 0.003
  let pulseScale := 0.8 + 0.4 * env.sinq pulseTime
  let n := pts.length
  [CtxOp.beginPath,
   CtxOp.moveTo (pts.getD 0 default).x (pts.getD 0 default).y] ++
  cmap (fun i => [CtxOp.lineTo (pts.getD i default).x (pts.getD i default).y])
    (List.range' 1 (n - 1)) ++
  [CtxOp.lineWidth (stroke.size * pulseScale),
   CtxOp.strokeStyle stroke.color, CtxOp.stroke,
   CtxOp.beginPath,
   CtxOp.moveTo (pts.getD 0 default).x (pts.getD 0 default).y] ++
  cmap (fun k =>
      let i := 2 * k + 1
      [CtxOp.lineTo (pts.getD i default).x (pts.getD i default).y])
    (List.range (n / 2)) ++
  [CtxOp.lineWidth (stroke.size * pulseScale * 1.5),
   CtxOp.strokeStyle (setColorOpacity stroke.color 0.3), CtxOp.stroke]

/-- The `particle` brush: walks the render points in strides of
`max(4, floor(n/40))`, drawing a filled disc at each sampled point; every
second sampled point spawns two satellite discs at 60% opacity before the
alpha is reset to 1. -/
def particleOps (env : MathEnv) (stroke : Stroke)
    (pts : List StrokePoint) : List CtxOp :=
  let n := pts.length
  let particleSpacing := max 4 (n / 40)
  cmap (fun k =>
      let i := k * particleSpacing
      let point := pts.getD i default
      let particleSize := stroke.size * point.pressure * 0.5
      [CtxOp.beginPath, CtxOp.fillStyle stroke.color,
       CtxOp.arc point.x point.y particleSize 0 (env.piq * 2), CtxOp.fill] ++
      (if i % (particleSpacing * 2) == 0 then
        cmap (fun j =>
            let angle := (j : ℚ) * env.piq + (i : ℚ) * 0.1
            let distance := particleSize * 0.7
            let particleX := point.x + env.cosq angle * distance
            let particleY := point.y + env.sinq angle * distance
            [CtxOp.beginPath,
             CtxOp.arc particleX particleY (particleSize * 0.4) 0 (env.piq * 2),
             CtxOp.fillStyle stroke.color, CtxOp.globalAlpha 0.6, CtxOp.fill])
          (List.range 2) ++
        [CtxOp.globalAlpha 1.0]
      else []))
    (List.range ((n + particleSpacing - 1) / particleSpacing))

/-- The full sequence of context calls issued by one `drawBrush(stroke)`
invocation that passes the guard: `save`; round caps and joins; the glow
(shadow blur `0.5·size`, shadow color = stroke color); the brush-specific
body on the render-time-simplified points; `restore`. -/
def drawBrushOps (env : MathEnv) (now : ℚ) (stroke : Stroke) : List CtxOp :=
  let pts := pointsToRender stroke.points
  CtxOp.save :: CtxOp.lineCap "round" :: CtxOp.lineJoin "round" ::
  CtxOp.shadowBlur (stroke.size * 0.5) :: CtxOp.shadowColor stroke.color ::
  ((match stroke.brush with
    | BrushStyle.ripple => rippleOps env now stroke pts
    | BrushStyle.pulse => pulseOps env now stroke pts
    | BrushStyle.particle => particleOps env stroke pts) ++ [CtxOp.restore])

/-- `drawBrush(stroke, context)`: returns before doing anything when no
context was acquired or the stroke has fewer than 2 points; otherwise runs
the full call sequence against the surface. -/
def drawBrush (env : MathEnv) (now : ℚ) (stroke : Stroke)
    (ctx : Option Canvas) : Option Canvas :=
  match ctx with
  | none => none
  | some c =>
    if stroke.points.length < 2 then some c
    else some (applyOps (drawBrushOps env now stroke) c)

/-! ## Renderer lemmas -/

theorem applyOps_append (l1 l2 : List CtxOp) (c : Canvas) :
    applyOps (l1 ++ l2) c = applyOps l2 (applyOps l1 c) := by
  simp [applyOps, List.foldl_append]

/-- Ops that manipulate the attribute stack. -/
def isSaveRestore : CtxOp → Bool
  | .save => true
  | .restore => true
  | _ => false

/-- A call sequence free of `save` / `restore`. -/
def noSR (ops : List CtxOp) : Prop := ∀ op ∈ ops, isSaveRestore op = false

theorem noSR_nil : noSR [] := fun op hop => absurd hop (List.not_mem_nil op)

theorem noSR_cons {op : CtxOp} {l : List CtxOp}
    (h1 : isSaveRestore op = false) (h2 : noSR l) : noSR (op :: l) := by
  intro o ho
  rcases List.mem_cons.mp ho with rfl | ho
  · exact h1
  · exact h2 o ho

theorem noSR_append {l1 l2 : List CtxOp} (h1 : noSR l1) (h2 : noSR l2) :
    noSR (l1 ++ l2) := by
  intro op hop
  rcases List.mem_append.mp hop with h | h
  · exact h1 op h
  · exact h2 op h

theorem noSR_cmap {α : Type} {f : α → List CtxOp} (l : List α)
    (hf : ∀ a, noSR (f a)) : noSR (cmap f l) := by
  induction l with
  | nil => exact noSR_nil
  | cons a l ih =>
    intro op hop
    rw [show cmap f (a :: l) = f a ++ cmap f l from rfl] at hop
    exact noSR_append (hf a) ih op hop

theorem noSR_ite (P : Prop) [Decidable P] {l1 l2 : List CtxOp}
    (h1 : noSR l1) (h2 : noSR l2) : noSR (if P then l1 else l2) := by
  split <;> assumption

theorem applyOp_restore_stack_nil {c : Canvas} (h : c.stack = []) :
    applyOp c .restore = c := by
  simp [applyOp, h]

theorem applyOp_restore_stack_cons {c : Canvas} {a : CanvasAttrs}
    {rest : List CanvasAttrs} (h : c.stack = a :: rest) :
    applyOp c .restore = { c with attrs := a, stack := rest } := by
  simp [applyOp, h]

theorem applyOps_stack_noSR : ∀ (ops : List CtxOp), noSR ops →
    ∀ c : Canvas, (applyOps ops c).stack = c.stack
  | [], _, _ => rfl
  | op :: l, h, c => by
    have hop := h op (List.mem_cons_self _ _)
    have hl : noSR l := fun o ho => h o (List.mem_cons_of_mem _ ho)
    show (applyOps l (applyOp c op)).stack = c.stack
    rw [applyOps_stack_noSR l hl]
    cases op <;> first | rfl | simp [isSaveRestore] at hop

theorem applyOp_sim (c c' : Canvas) (op : CtxOp)
    (ha : c.attrs = c'.attrs) (hp : c.path = c'.path) (hs : c.stack = c'.stack) :
    (applyOp c op).attrs = (applyOp c' op).attrs ∧
    (applyOp c op).path = (applyOp c' op).path ∧
    (applyOp c op).stack = (applyOp c' op).stack ∧
    ∃ e, (applyOp c op).output = c.output ++ e ∧
         (applyOp c' op).output = c'.output ++ e := by
  cases op
  case restore =>
    rcases hstk : c.stack with _ | ⟨a, rest⟩
    · have hstk' := hs.symm.trans hstk
      rw [applyOp_restore_stack_nil hstk, applyOp_restore_stack_nil hstk']
      exact ⟨ha, hp, hs, [], by simp, by simp⟩
    · have hstk' := hs.symm.trans hstk
      rw [applyOp_restore_stack_cons hstk, applyOp_restore_stack_cons hstk']
      exact ⟨rfl, hp, rfl, [], by simp, by simp⟩
  case stroke =>
    exact ⟨ha, hp, hs, [.strokedPath c.path c.attrs],
      by simp [applyOp], by simp [applyOp, ha, hp]⟩
  case fill =>
    exact ⟨ha, hp, hs, [.filledPath c.path c.attrs],
      by simp [applyOp], by simp [applyOp, ha, hp]⟩
  all_goals exact ⟨by simp [applyOp, ha], by simp [applyOp, hp],
    by simp [applyOp, ha, hs], [], by simp [applyOp], by simp [applyOp]⟩

theorem applyOps_sim : ∀ (ops : List CtxOp) (c c' : Canvas),
    c.attrs = c'.attrs → c.path = c'.path → c.stack = c'.stack →
    (applyOps ops c).attrs = (applyOps ops c').attrs ∧
    (applyOps ops c).path = (applyOps ops c').path ∧
    (applyOps ops c).stack = (applyOps ops c').stack ∧
    ∃ d, (applyOps ops c).output = c.output ++ d ∧
         (applyOps ops c').output = c'.output ++ d
  | [], _, _, ha, hp, hs => ⟨ha, hp, hs, [], by simp [applyOps], by simp [applyOps]⟩
  | op :: ops, c, c', ha, hp, hs => by
    obtain ⟨ha1, hp1, hs1, e, he, he'⟩ := applyOp_sim c c' op ha hp hs
    obtain ⟨ha2, hp2, hs2, d, hd, hd'⟩ :=
      applyOps_sim ops (applyOp c op) (applyOp c' op) ha1 hp1 hs1
    refine ⟨ha2, hp2, hs2, e ++ d, ?_, ?_⟩
    · show (applyOps ops (applyOp c op)).output = c.output ++ (e ++ d)
      rw [hd, he, List.append_assoc]
    · show (applyOps ops (applyOp c' op)).output = c'.output ++ (e ++ d)
      rw [hd', he', List.append_assoc]

theorem rippleOps_noSR (env : MathEnv) (now : ℚ) (stroke : Stroke)
    (pts : List StrokePoint) : noSR (rippleOps env now stroke pts) := by
  simp only [rippleOps]
  refine noSR_append (noSR_append (noSR_append ?_ ?_) ?_) ?_
  · exact noSR_cons rfl (noSR_cons rfl noSR_nil)
  · refine noSR_cmap _ fun i => ?_
    exact noSR_append (noSR_ite _ (noSR_cons rfl noSR_nil) noSR_nil)
      (noSR_cons rfl noSR_nil)
  · exact noSR_cons rfl (noSR_cons rfl noSR_nil)
  · refine noSR_ite _ ?_ noSR_nil
    refine noSR_append (noSR_append (noSR_cons rfl noSR_nil) ?_) ?_
    · refine noSR_cmap _ fun k => ?_
      exact noSR_ite _ (noSR_cons rfl noSR_nil) (noSR_cons rfl noSR_nil)
    · exact noSR_cons rfl (noSR_cons rfl (noSR_cons rfl (noSR_cons rfl noSR_nil)))

theorem pulseOps_noSR (env : MathEnv) (now : ℚ) (stroke : Stroke)
    (pts : List StrokePoint) : noSR (pulseOps env now stroke pts) := by
  simp only [pulseOps]
  refine noSR_append (noSR_append (noSR_append (noSR_append ?_ ?_) ?_) ?_) ?_
  · exact noSR_cons rfl (noSR_cons rfl noSR_nil)
  · exact noSR_cmap _ fun i => noSR_cons rfl noSR_nil
  · exact noSR_cons rfl (noSR_cons rfl (noSR_cons rfl (noSR_cons rfl
      (noSR_cons rfl noSR_nil))))
  · exact noSR_cmap _ fun k => noSR_cons rfl noSR_nil
  · exact noSR_cons rfl (noSR_cons rfl (noSR_cons rfl noSR_nil))

theorem particleOps_noSR (env : MathEnv) (stroke : Stroke)
    (pts : List StrokePoint) : noSR (particleOps env stroke pts) := by
  simp only [particleOps]
  refine noSR_cmap _ fun k => ?_
  refine noSR_append ?_ ?_
  · exact noSR_cons rfl (noSR_cons rfl (noSR_cons rfl (noSR_cons rfl noSR_nil)))
  · refine noSR_ite _ ?_ noSR_nil
    refine noSR_append ?_ (noSR_cons rfl noSR_nil)
    refine noSR_cmap _ fun j => ?_
    exact noSR_cons rfl (noSR_cons rfl (noSR_cons rfl (noSR_cons rfl
      (noSR_cons rfl noSR_nil))))

theorem rippleOps_head (env : MathEnv) (now : ℚ) (stroke : Stroke)
    (pts : List StrokePoint) :
    ∃ rest, rippleOps env now stroke pts = CtxOp.beginPath :: rest :=
  ⟨_, rfl⟩

theorem pulseOps_head (env : MathEnv) (now : ℚ) (stroke : Stroke)
    (pts : List StrokePoint) :
    ∃ rest, pulseOps env now stroke pts = CtxOp.beginPath :: rest :=
  ⟨_, rfl⟩

theorem particleOps_head (env : MathEnv) (stroke : Stroke)
    (pts : List StrokePoint) (hn : pts ≠ []) :
    ∃ rest, particleOps env stroke pts = CtxOp.beginPath :: rest := by
  have hlen : 0 < pts.length := List.length_pos.mpr hn
  have hpos : 0 < (pts.length + max 4 (pts.length / 40) - 1) / max 4 (pts.length / 40) := by
    have h4 : 4 ≤ max 4 (pts.length / 40) := le_max_left _ _
    exact (Nat.le_div_iff_mul_le (by omega)).mpr (by omega)
  obtain ⟨m, hm⟩ := Nat.exists_eq_succ_of_ne_zero (Nat.pos_iff_ne_zero.mp hpos)
  simp only [particleOps]
  rw [hm, List.range_succ_eq_map m]
  exact ⟨_, rfl⟩

theorem pointsToRender_length_pos {pts : List StrokePoint} (h : 2 ≤ pts.length) :
    0 < (pointsToRender pts).length := by
  unfold pointsToRender
  split
  · cases pts with
    | nil => simp at h
    | cons x xs =>
      exact List.length_pos_of_mem
        (filterIdx_head_mem (fun i => i % 2 == 0 || i == (x :: xs).length - 1) x xs
          (by simp))
  · omega

theorem applyOps_tail_spec (rest : List CtxOp) (hrest : noSR rest)
    (A a : CanvasAttrs) (sk : List CanvasAttrs) (out : List DrawCmd) :
    applyOps (rest ++ [CtxOp.restore])
      { attrs := A, stack := a :: sk, path := [], output := out }
    = { attrs := a, stack := sk,
        path := (applyOps rest
          { attrs := A, stack := a :: sk, path := [], output := [] }).path,
        output := out ++ (applyOps rest
          { attrs := A, stack := a :: sk, path := [], output := [] }).output } := by
  rw [applyOps_append]
  obtain ⟨hA, hP, hS, d, hd, hd'⟩ := applyOps_sim rest
    { attrs := A, stack := a :: sk, path := [], output := out }
    { attrs := A, stack := a :: sk, path := [], output := [] } rfl rfl rfl
  have hstk : (applyOps rest
      { attrs := A, stack := a :: sk, path := [], output := out }).stack = a :: sk := by
    rw [applyOps_stack_noSR rest hrest]
  have hout : (applyOps rest
      { attrs := A, stack := a :: sk, path := [], output := out }).output
      = out ++ (applyOps rest
        { attrs := A, stack := a :: sk, path := [], output := [] }).output := by
    rw [hd, hd']
    simp
  show applyOp (applyOps rest
    { attrs := A, stack := a :: sk, path := [], output := out }) .restore = _
  rw [applyOp_restore_stack_cons hstk]
  rw [show ({ applyOps rest
      { attrs := A, stack := a :: sk, path := [], output := out } with
      attrs := a, stack := sk } : Canvas)
    = { attrs := a, stack := sk,
        path := (applyOps rest
          { attrs := A, stack := a :: sk, path := [], output := out }).path,
        output := (applyOps rest
          { attrs := A, stack := a :: sk, path := [], output := out }).output }
    from rfl]
  rw [hP, hout]

theorem drawBrush_core_spec (env : MathEnv) (now : ℚ) (stroke : Stroke)
    (h2 : 2 ≤ stroke.points.length) (a : CanvasAttrs) (sk : List CanvasAttrs) :
    ∃ (δ : List DrawCmd) (pfin : List PathSeg),
      ∀ c : Canvas, c.attrs = a → c.stack = sk →
        applyOps (drawBrushOps env now stroke) c =
          { attrs := a, stack := sk, path := pfin, output := c.output ++ δ } := by
  have hne : pointsToRender stroke.points ≠ [] :=
    List.ne_nil_of_length_pos (pointsToRender_length_pos h2)
  obtain ⟨rest, hbr⟩ : ∃ rest, (match stroke.brush with
      | BrushStyle.ripple => rippleOps env now stroke (pointsToRender stroke.points)
      | BrushStyle.pulse => pulseOps env now stroke (pointsToRender stroke.points)
      | BrushStyle.particle => particleOps env stroke (pointsToRender stroke.points))
      = CtxOp.beginPath :: rest := by
    cases stroke.brush
    case ripple => exact rippleOps_head env now stroke _
    case pulse => exact pulseOps_head env now stroke _
    case particle => exact particleOps_head env stroke _ hne
  have hrest : noSR rest := by
    have hall : noSR (CtxOp.beginPath :: rest) := by
      rw [← hbr]
      cases stroke.brush
      case ripple => exact rippleOps_noSR env now stroke _
      case pulse => exact pulseOps_noSR env now stroke _
      case particle => exact particleOps_noSR env stroke _
    exact fun o ho => hall o (List.mem_cons_of_mem _ ho)
  have hops : drawBrushOps env now stroke =
      CtxOp.save :: CtxOp.lineCap "round" :: CtxOp.lineJoin "round" ::
      CtxOp.shadowBlur (stroke.size * 0.5) :: CtxOp.shadowColor stroke.color ::
      CtxOp.beginPath :: (rest ++ [CtxOp.restore]) := by
    simp only [drawBrushOps]
    rw [hbr]
    rfl
  refine ⟨(applyOps rest
      { attrs := { a with lineCap := "round", lineJoin := "round", shadowBlur := stroke.size * 0.5, shadowColor := stroke.color }
        stack := a :: sk
        path := []
        output := [] }).output,
    (applyOps rest
      { attrs := { a with lineCap := "round", lineJoin := "round", shadowBlur := stroke.size * 0.5, shadowColor := stroke.color }
        stack := a :: sk
        path := []
        output := [] }).path,
    fun c hca hcs => ?_⟩
  rw [hops]
  have hstep : applyOps (CtxOp.save :: CtxOp.lineCap "round" :: CtxOp.lineJoin "round" ::
      CtxOp.shadowBlur (stroke.size * 0.5) :: CtxOp.shadowColor stroke.color ::
      CtxOp.beginPath :: (rest ++ [CtxOp.restore])) c
      = applyOps (rest ++ [CtxOp.restore])
        { attrs := { a with lineCap := "round", lineJoin := "round", shadowBlur := stroke.size * 0.5, shadowColor := stroke.color }
          stack := a :: sk
          path := []
          output := c.output } := by
    show applyOps (rest ++ [CtxOp.restore]) _ = _
    congr 1
    simp [applyOp, hca, hcs]
  rw [hstep, applyOps_tail_spec rest hrest _ a sk c.output]

/-! ## C9: rendering is deterministic in the stroke, surface and time -/

/-- C9: for every stroke with at least 2 points, the drawn result is a
deterministic function of the stroke, the entry surface state, and the
clock value supplied for `performance.now()` — not of call count: calling
`drawBrush` twice in succession with the same time value emits exactly the
same drawing-command sequence both times, and each call hands the
persistent surface attributes and save-stack back unchanged. -/
theorem render_deterministic_in_time (env : MathEnv) (now : ℚ) (stroke : Stroke)
    (c : Canvas) (h2 : 2 ≤ stroke.points.length) :
    ∃ (c1 c2 : Canvas) (d : List DrawCmd),
      drawBrush env now stroke (some c) = some c1 ∧
      drawBrush env now stroke (some c1) = some c2 ∧
      c1.attrs = c.attrs ∧ c1.stack = c.stack ∧
      c2.attrs = c.attrs ∧ c2.stack = c.stack ∧
      c1.output = c.output ++ d ∧ c2.output = c1.output ++ d := by
  obtain ⟨δ, pfin, hspec⟩ := drawBrush_core_spec env now stroke h2 c.attrs c.stack
  have hnot : ¬ stroke.points.length < 2 := by omega
  have h1 := hspec c rfl rfl
  have h2' := hspec (applyOps (drawBrushOps env now stroke) c) (by rw [h1]) (by rw [h1])
  refine ⟨applyOps (drawBrushOps env now stroke) c,
    applyOps (drawBrushOps env now stroke) (applyOps (drawBrushOps env now stroke) c),
    δ, ?_, ?_, ?_, ?_, ?_, ?_, ?_, ?_⟩
  · simp [drawBrush, hnot]
  · simp [drawBrush, hnot]
  · rw [h1]
  · rw [h1]
  · rw [h2']
  · rw [h2']
  · rw [h1]
  · rw [h2']

def env0 : MathEnv := ⟨fun _ => 0, fun _ => 0, 3.14159⟩

def canvas0 : Canvas :=
  { attrs :=
      { lineWidth := 1
        strokeStyle := "#000000"
        fillStyle := "#000000"
        globalAlpha := 1
        shadowBlur := 0
        shadowColor := "#000000"
        lineCap := "butt"
        lineJoin := "miter" }
    stack := []
    path := []
    output := [] }

/-- Witness for C9 at a concrete 2-point stroke on a fresh surface. -/
theorem render_deterministic_in_time_witness :
    ∃ (c1 c2 : Canvas) (d : List DrawCmd),
      drawBrush env0 5 stroke2 (some canvas0) = some c1 ∧
      drawBrush env0 5 stroke2 (some c1) = some c2 ∧
      c1.attrs = canvas0.attrs ∧ c1.stack = canvas0.stack ∧
      c2.attrs = canvas0.attrs ∧ c2.stack = canvas0.stack ∧
      c1.output = canvas0.output ++ d ∧ c2.output = c1.output ++ d :=
  render_deterministic_in_time env0 5 stroke2 canvas0 (by decide)

/-! ## C10: degenerate rendering inputs are total no-ops -/

/-- C10: rendering a stroke with fewer than 2 points, or rendering without
an acquired context, is a total no-op: the brush renderer returns before
issuing any context call or indexing any point; and whenever drawing does
happen (≥2 points), the render-time point list is non-empty, so the
accesses to its first and last entries are in bounds. -/
theorem drawBrush_degenerate_noop :
    (∀ (env : MathEnv) (now : ℚ) (stroke : Stroke) (c : Canvas),
      stroke.points.length < 2 → drawBrush env now stroke (some c) = some c) ∧
    (∀ (env : MathEnv) (now : ℚ) (stroke : Stroke),
      drawBrush env now stroke none = none) ∧
    (∀ pts : List StrokePoint, 2 ≤ pts.length → 0 < (pointsToRender pts).length) := by
  refine ⟨?_, ?_, ?_⟩
  · intro env now stroke c h
    simp [drawBrush, h]
  · intro env now stroke; rfl
  · intro pts h
    exact pointsToRender_length_pos h

/-- Witness for C10: a 1-point stroke on a live surface, a missing
context, and the in-bounds render list of a 2-point stroke. -/
theorem drawBrush_degenerate_noop_witness :
    drawBrush env0 0 stroke1 (some canvas0) = some canvas0 ∧
    drawBrush env0 0 stroke1 none = none ∧
    0 < (pointsToRender stroke2.points).length :=
  ⟨drawBrush_degenerate_noop.1 env0 0 stroke1 canvas0 (by decide),
   drawBrush_degenerate_noop.2.1 env0 0 stroke1,
   drawBrush_degenerate_noop.2.2 stroke2.points (by decide)⟩
